import Mathlib

/-!
Shallow embedding of `app/parking_feed.py` (parking-zh-ai).

The Python module defines:
  * `_parse_description : str -> (str, Optional[int])`
  * `_parse_dt : entry -> Optional[datetime]`
  * the entry-to-`ParkingLot` normalization inside `FeedCache.get`
  * `sort_key` and the ascending sort of the produced lots
  * class `FeedCache` with fields `ttl_seconds`, `_expires_at`, `_value`
    and method `get()`.

Modelling choices:
  * Python strings are modelled via `List Char`; `str.split`, `str.strip`,
    `str.lower`, the substring test `"??" in s` and the builtin `int(...)`
    are embedded below as executable functions (`pySplit`, `pyStrip`,
    `pyLower`, `hasQQ`, `pyInt`) with ASCII semantics.
  * Clock values (`time.time()`, `_expires_at`, `ttl_seconds`) are exact
    integers standing for the Python floats/ints.
  * `feedparser.parse(FEED_URL).entries` is an external effect: `get` takes
    the trace of successive fetch results (`List (List RawEntry)`) and
    returns the unconsumed remainder, so "one fetch" / "no fetch" is the
    number of elements consumed from the trace.
  * `time.struct_time` / `time.mktime` / `datetime.fromtimestamp(..., utc)`
    are abstracted: a parseable publish time is an abstract UTC instant
    (a `Nat`), and the conversion preserves it.
-/

/-- The ASCII whitespace characters removed by Python's `str.strip()`
(model; Python also strips some non-ASCII Unicode whitespace). -/
def pySpace (c : Char) : Bool :=
  c = ' ' || c = '\t' || c = '\n' || c = '\r' || c = '\x0b' || c = '\x0c'

/-- Python `s.split(sep)` for a one-character separator: splits at every
occurrence, keeping empty pieces, and yields `[""]` on the empty string. -/
def pySplit (sep : Char) : List Char → List (List Char)
  | [] => [[]]
  | c :: cs =>
    match pySplit sep cs with
    | [] => [[]]
    | p :: ps => if c = sep then [] :: p :: ps else (c :: p) :: ps

/-- Python `s.strip()`: drop whitespace from both ends. -/
def pyStrip (l : List Char) : List Char :=
  ((l.dropWhile pySpace).reverse.dropWhile pySpace).reverse

/-- Python `s.lower()` (ASCII model). -/
def pyLower (l : List Char) : List Char :=
  l.map Char.toLower

/-- Python `"??" in s`: does the two-character pattern `??` occur in `s`? -/
def hasQQ : List Char → Bool
  | [] => false
  | '?' :: '?' :: _ => true
  | _ :: rest => hasQQ rest

/-- Decimal value accumulator for `pyDigits`: after a first digit, Python's
`int` accepts further digits with single underscores between digits. -/
def pyDigitsGo (acc : Nat) : List Char → Option Nat
  | [] => some acc
  | '_' :: rest =>
    match rest with
    | [] => none
    | d :: rest2 =>
      if d.isDigit then pyDigitsGo (acc * 10 + (d.toNat - 48)) rest2 else none
  | d :: rest =>
    if d.isDigit then pyDigitsGo (acc * 10 + (d.toNat - 48)) rest else none

/-- A nonempty run of decimal digits (single underscores allowed between
digits, as in Python's integer literals), or `none`. -/
def pyDigits (l : List Char) : Option Nat :=
  match l with
  | [] => none
  | c :: cs => if c.isDigit then pyDigitsGo (c.toNat - 48) cs else none

/-- Python's builtin `int(s)` on a string: optional surrounding whitespace,
optional single `+`/`-` sign, then a nonempty digit run; any other input
raises, modelled as `none`. -/
def pyInt (l : List Char) : Option Int :=
  match pyStrip l with
  | [] => none
  | c :: rest =>
    if c = '+' then (pyDigits rest).map (fun n => Int.ofNat n)
    else if c = '-' then (pyDigits rest).map (fun n => -Int.ofNat n)
    else (pyDigits (c :: rest)).map (fun n => Int.ofNat n)

/-- `_parse_description(desc)` from `app/parking_feed.py`:
empty input gives `("unknown", None)`; otherwise split on `/` and strip the
parts; when there are not exactly two parts, fall back to the whole trimmed
lowercased string (or `"unknown"` when that is empty); with exactly two
parts, lowercase the status (overridden to `"unknown"` when the raw status
contains `??`) and try `int(...)` on the count. -/
def _parse_description (desc : String) : String × Option Int :=
  if desc = "" then ("unknown", none)
  else
    match (pySplit '/' desc.data).map pyStrip with
    | [status_raw, spaces_raw] =>
      let status := if hasQQ status_raw then "unknown" else String.mk (pyLower status_raw)
      (status, pyInt spaces_raw)
    | _ =>
      let w := pyLower (pyStrip desc.data)
      (if w = [] then "unknown" else String.mk w, none)

/-- The `ParkingLot` frozen dataclass. `updated_at` is the abstract UTC
instant (see the module comment). -/
structure ParkingLot where
  name : String
  link : String
  status : String
  free_spaces : Option Int
  updated_at : Option Nat
  deriving DecidableEq

/-- One raw feed entry as `feedparser` exposes it: all fields optional
(`getattr(e, field, "")` supplies defaults in the Python code). -/
structure RawEntry where
  title : Option String
  link : Option String
  description : Option String
  published_parsed : Option Nat
  deriving DecidableEq

/-- `_parse_dt(entry)`: `None` when the entry has no `published_parsed`;
otherwise the conversion `datetime.fromtimestamp(time.mktime(t), utc)`,
abstracted as the identity on abstract instants. -/
def _parse_dt (e : RawEntry) : Option Nat :=
  match e.published_parsed with
  | none => none
  | some t => some t

/-- `s.strip()` on a packaged string. -/
def pyStripStr (s : String) : String :=
  String.mk (pyStrip s.data)

/-- The body of the `for e in parsed.entries` loop in `FeedCache.get`:
build one `ParkingLot` from one raw entry. -/
def entryToLot (e : RawEntry) : ParkingLot :=
  let sf := _parse_description ((e.description).getD "")
  { name := pyStripStr ((e.title).getD "")
    link := pyStripStr ((e.link).getD "")
    status := sf.1
    free_spaces := sf.2
    updated_at := _parse_dt e }

/-- `sort_key(x)` from `FeedCache.get`: `(open_rank, free_rank, name.lower())`
with `open_rank = 0` iff the status is exactly `"open"`, and
`free_rank = -(free_spaces if present else -1)`. -/
def sort_key (x : ParkingLot) : Nat × Int × List Char :=
  ( if x.status = "open" then 0 else 1,
    -(match x.free_spaces with | some n => n | none => -1),
    pyLower x.name.data )

/-- Python's `<=` on strings: lexicographic by code point. -/
def charListLE : List Char → List Char → Bool
  | [], _ => true
  | _ :: _, [] => false
  | c :: cs, d :: ds => if c < d then true else if d < c then false else charListLE cs ds

/-- Python's `<=` on the key tuples compared by `list.sort`: lexicographic
on the three components. -/
def keyLE : Nat × Int × List Char → Nat × Int × List Char → Bool
  | (r1, f1, n1), (r2, f2, n2) =>
    if r1 < r2 then true
    else if r2 < r1 then false
    else if f1 < f2 then true
    else if f2 < f1 then false
    else charListLE n1 n2

/-- `sort_key x <= sort_key y`: the order `lots.sort(key=sort_key)` sorts by. -/
def lotLE (a b : ParkingLot) : Bool :=
  keyLE (sort_key a) (sort_key b)

/-- The fetch-and-normalize pipeline of a cache miss: normalize every raw
entry and sort ascending by `sort_key` (Python's stable `list.sort`
modelled by the stable `List.mergeSort`). -/
def fetchLots (entries : List RawEntry) : List ParkingLot :=
  (entries.map entryToLot).mergeSort lotLE

/-- The `FeedCache` state: configured ttl, absolute expiry, cached lots. -/
structure FeedCache where
  ttl_seconds : Int
  _expires_at : Int
  _value : List ParkingLot
  deriving DecidableEq

/-- `FeedCache.__init__`: expiry starts at `0.0`, the cached list empty
(`main.py` constructs the cache with `ttl_seconds=15`). -/
def FeedCache.init (ttl_seconds : Int) : FeedCache :=
  { ttl_seconds := ttl_seconds, _expires_at := 0, _value := [] }

/-- `FeedCache.get()`: `now` is `time.time()`, `feeds` the trace of results
`feedparser.parse(FEED_URL).entries` would deliver on successive fetches.
Returns the new cache state, the returned lots, and the unconsumed fetch
trace. On a hit (`now < self._expires_at and self._value`) nothing is
fetched; otherwise one fetch result is consumed, normalized, sorted,
stored, and the expiry becomes `now + ttl_seconds`. -/
def FeedCache.get (c : FeedCache) (now : Int) (feeds : List (List RawEntry)) :
    FeedCache × List ParkingLot × List (List RawEntry) :=
  if now < c._expires_at ∧ c._value ≠ [] then
    (c, c._value, feeds)
  else
    let lots := fetchLots (feeds.headD [])
    ({ c with _value := lots, _expires_at := now + c.ttl_seconds }, lots, feeds.tail)

/-- The invariant that the cached sequence is sorted ascending by the
composite `sort_key`. -/
def FeedCache.sortedInv (c : FeedCache) : Prop :=
  c._value.Pairwise (fun a b => keyLE (sort_key a) (sort_key b) = true)

/-- A concrete raw feed entry, used to instantiate theorems. -/
def sampleEntry : RawEntry :=
  { title := some " Parkhaus A "
    link := some "https://example.org/a"
    description := some "open / 43"
    published_parsed := some 1700000000 }

/-- A concrete parking lot, used to instantiate theorems. -/
def lotA : ParkingLot :=
  { name := "A", link := "", status := "open", free_spaces := some 3, updated_at := none }

/-- A warm cache state: nonempty value, expiry in the future of `now = 5`. -/
def cacheWarm : FeedCache :=
  { ttl_seconds := 15, _expires_at := 10, _value := [lotA] }

/-- Unfolding of `charListLE` on two nonempty strings. -/
theorem charListLE_cons (c d : Char) (cs ds : List Char) :
    charListLE (c :: cs) (d :: ds) = true ↔
      c < d ∨ ¬c < d ∧ ¬d < c ∧ charListLE cs ds = true := by
  by_cases h1 : c < d
  · simp [charListLE, h1]
  · by_cases h2 : d < c
    · simp [charListLE, h1, h2]
    · simp [charListLE, h1, h2]

/-- `charListLE` is total: any two strings compare one way or the other. -/
theorem charListLE_total (a b : List Char) : charListLE a b = true ∨ charListLE b a = true := by
  induction a generalizing b with
  | nil => left; rfl
  | cons c cs ih =>
    cases b with
    | nil => right; rfl
    | cons d ds =>
      rcases lt_trichotomy c d with h | h | h
      · left; rw [charListLE_cons]; exact Or.inl h
      · subst h
        rcases ih ds with g | g
        · left; rw [charListLE_cons]; exact Or.inr ⟨lt_irrefl c, lt_irrefl c, g⟩
        · right; rw [charListLE_cons]; exact Or.inr ⟨lt_irrefl c, lt_irrefl c, g⟩
      · right; rw [charListLE_cons]; exact Or.inl h

/-- `charListLE` is transitive. -/
theorem charListLE_trans (a b c : List Char) (hab : charListLE a b = true)
    (hbc : charListLE b c = true) : charListLE a c = true := by
  induction a generalizing b c with
  | nil => rfl
  | cons x xs ih =>
    cases b with
    | nil => simp [charListLE] at hab
    | cons y ys =>
      cases c with
      | nil => simp [charListLE] at hbc
      | cons z zs =>
        rw [charListLE_cons] at hab hbc ⊢
        rcases hab with hxy | ⟨hxy, hyx, hab2⟩ <;> rcases hbc with hyz | ⟨hyz, hzy, hbc2⟩
        · exact Or.inl (lt_trans hxy hyz)
        · exact Or.inl (lt_of_lt_of_le hxy (not_lt.mp hzy))
        · exact Or.inl (lt_of_le_of_lt (not_lt.mp hyx) hyz)
        · have e1 : x = y := le_antisymm (not_lt.mp hyx) (not_lt.mp hxy)
          have e2 : y = z := le_antisymm (not_lt.mp hzy) (not_lt.mp hyz)
          subst e1; subst e2
          exact Or.inr ⟨lt_irrefl x, lt_irrefl x, ih _ _ hab2 hbc2⟩

/-- Unfolding of `keyLE` as lexicographic comparison of the triple. -/
theorem keyLE_iff (r1 r2 : Nat) (f1 f2 : Int) (n1 n2 : List Char) :
    keyLE (r1, f1, n1) (r2, f2, n2) = true ↔
      r1 < r2 ∨ r1 = r2 ∧ (f1 < f2 ∨ f1 = f2 ∧ charListLE n1 n2 = true) := by
  by_cases h1 : r1 < r2
  · simp [keyLE, h1]
  · by_cases h2 : r2 < r1
    · have hne : ¬r1 = r2 := by omega
      simp [keyLE, h1, h2, hne]
    · have hr : r1 = r2 := by omega
      subst hr
      by_cases g1 : f1 < f2
      · simp [keyLE, h1, g1]
      · by_cases g2 : f2 < f1
        · have hfe : ¬f1 = f2 := by omega
          simp [keyLE, h1, g1, g2, hfe]
        · have hf : f1 = f2 := by omega
          subst hf
          simp [keyLE, h1, g1]

/-- `keyLE` is total. -/
theorem keyLE_total (k1 k2 : Nat × Int × List Char) :
    keyLE k1 k2 = true ∨ keyLE k2 k1 = true := by
  obtain ⟨r1, f1, n1⟩ := k1
  obtain ⟨r2, f2, n2⟩ := k2
  rw [keyLE_iff, keyLE_iff]
  rcases Nat.lt_trichotomy r1 r2 with h | h | h
  · exact Or.inl (Or.inl h)
  · subst h
    rcases Int.lt_trichotomy f1 f2 with g | g | g
    · exact Or.inl (Or.inr ⟨rfl, Or.inl g⟩)
    · subst g
      rcases charListLE_total n1 n2 with t | t
      · exact Or.inl (Or.inr ⟨rfl, Or.inr ⟨rfl, t⟩⟩)
      · exact Or.inr (Or.inr ⟨rfl, Or.inr ⟨rfl, t⟩⟩)
    · exact Or.inr (Or.inr ⟨rfl, Or.inl g⟩)
  · exact Or.inr (Or.inl h)

/-- `keyLE` is transitive. -/
theorem keyLE_trans (k1 k2 k3 : Nat × Int × List Char) (h12 : keyLE k1 k2 = true)
    (h23 : keyLE k2 k3 = true) : keyLE k1 k3 = true := by
  obtain ⟨r1, f1, n1⟩ := k1
  obtain ⟨r2, f2, n2⟩ := k2
  obtain ⟨r3, f3, n3⟩ := k3
  rw [keyLE_iff] at h12 h23 ⊢
  rcases h12 with h | ⟨hr12, h12f⟩
  · rcases h23 with h2 | ⟨hr23, _⟩
    · exact Or.inl (by omega)
    · exact Or.inl (by omega)
  · rcases h23 with h2 | ⟨hr23, h23f⟩
    · exact Or.inl (by omega)
    · refine Or.inr ⟨by omega, ?_⟩
      rcases h12f with g | ⟨hf12, g1⟩
      · rcases h23f with g2 | ⟨hf23, _⟩
        · exact Or.inl (by omega)
        · exact Or.inl (by omega)
      · rcases h23f with g2 | ⟨hf23, g2t⟩
        · exact Or.inl (by omega)
        · exact Or.inr ⟨by omega, charListLE_trans _ _ _ g1 g2t⟩

/-- `lotLE` is total. -/
theorem lotLE_total (a b : ParkingLot) : lotLE a b = true ∨ lotLE b a = true :=
  keyLE_total (sort_key a) (sort_key b)

/-- `lotLE` is transitive. -/
theorem lotLE_trans (a b c : ParkingLot) (hab : lotLE a b = true)
    (hbc : lotLE b c = true) : lotLE a c = true :=
  keyLE_trans (sort_key a) (sort_key b) (sort_key c) hab hbc

/-- The output of the fetch-and-normalize pipeline is pairwise ordered by
`lotLE`. -/
theorem fetchLots_pairwise (entries : List RawEntry) :
    (fetchLots entries).Pairwise (fun a b => lotLE a b = true) := by
  have h := @List.sorted_mergeSort ParkingLot lotLE
    (fun a b c hab hbc => lotLE_trans a b c hab hbc)
    (fun a b => by rcases lotLE_total a b with h | h <;> simp [h])
    (entries.map entryToLot)
  exact h.imp (fun hab => hab)

example : _parse_description "open / 43" = ("open", some 43) := by decide
example : _parse_description "" = ("unknown", none) := by decide
example : _parse_description "???? / ???" = ("unknown", none) := by decide
example : _parse_description "closed" = ("closed", none) := by decide
example : _parse_description "CLOSED / not-a-number" = ("closed", none) := by decide
example : _parse_description "open / -5" = ("open", some (-5)) := by decide

/-- Stripping only removes characters: membership is preserved downward. -/
theorem mem_of_mem_pyStrip {ch : Char} {l : List Char} (h : ch ∈ pyStrip l) : ch ∈ l := by
  unfold pyStrip at h
  have h1 : ch ∈ (l.dropWhile pySpace).reverse.dropWhile pySpace := List.mem_reverse.mp h
  have h2 : ch ∈ (l.dropWhile pySpace).reverse := (List.dropWhile_sublist pySpace).subset h1
  exact (List.dropWhile_sublist pySpace).subset (List.mem_reverse.mp h2)

/-- Every character of every piece of a split is a character of the input. -/
theorem mem_of_mem_pySplit {sep ch : Char} {l part : List Char}
    (hp : part ∈ pySplit sep l) (hc : ch ∈ part) : ch ∈ l := by
  induction l generalizing part with
  | nil =>
    simp [pySplit] at hp
    subst hp
    simp at hc
  | cons c cs ih =>
    unfold pySplit at hp
    cases hps : pySplit sep cs with
    | nil =>
      rw [hps] at hp
      simp at hp
      subst hp
      simp at hc
    | cons p ps =>
      rw [hps] at hp
      dsimp only at hp
      by_cases hcs : c = sep
      · rw [if_pos hcs] at hp
        rcases List.mem_cons.mp hp with h0 | h1
        · subst h0; simp at hc
        · exact List.mem_cons_of_mem c (ih (by rw [hps]; exact h1) hc)
      · rw [if_neg hcs] at hp
        rcases List.mem_cons.mp hp with h0 | h1
        · subst h0
          rcases List.mem_cons.mp hc with h2 | h3
          · rw [h2]; exact List.mem_cons_self c cs
          · exact List.mem_cons_of_mem c
              (ih (by rw [hps]; exact List.mem_cons_self p ps) h3)
        · exact List.mem_cons_of_mem c
            (ih (by rw [hps]; exact List.mem_cons_of_mem p h1) hc)

/-- `int(s)` only yields a negative number when `s` contains a minus sign. -/
theorem pyInt_neg {l : List Char} {n : Int} (h : pyInt l = some n) (hn : n < 0) :
    '-' ∈ l := by
  unfold pyInt at h
  cases hs : pyStrip l with
  | nil => rw [hs] at h; simp at h
  | cons c rest =>
    rw [hs] at h
    dsimp only at h
    by_cases hminus : c = '-'
    · exact mem_of_mem_pyStrip (show '-' ∈ pyStrip l by rw [hs, hminus]; exact List.mem_cons_self _ _)
    · exfalso
      by_cases hplus : c = '+'
      · rw [if_pos hplus] at h
        rcases Option.map_eq_some'.mp h with ⟨m, hm, hmn⟩
        have h0 : (0 : Int) ≤ Int.ofNat m := Int.ofNat_nonneg m
        omega
      · rw [if_neg hplus, if_neg hminus] at h
        rcases Option.map_eq_some'.mp h with ⟨m, hm, hmn⟩
        have h0 : (0 : Int) ≤ Int.ofNat m := Int.ofNat_nonneg m
        omega

/-- C1: on a cache miss (the current time is not before the stored expiry,
or the stored value is the empty sequence), `get` consumes exactly one
fetch result, normalizes every entry via `entryToLot`, sorts by `sort_key`
(both inside `fetchLots`), stores the new sequence, sets the expiry to
`now + ttl_seconds`, and returns exactly the new sequence. -/
theorem feedCache_get_miss (c : FeedCache) (now : Int) (f : List RawEntry)
    (rest : List (List RawEntry)) (h : ¬now < c._expires_at ∨ c._value = []) :
    c.get now (f :: rest) =
      ({ ttl_seconds := c.ttl_seconds, _expires_at := now + c.ttl_seconds,
          _value := fetchLots f }, fetchLots f, rest) := by
  have hg : ¬(now < c._expires_at ∧ c._value ≠ []) := by tauto
  unfold FeedCache.get
  rw [if_neg hg]
  rfl

/-- C1 witness: a cold cache at time 100 fetches, stores and returns the
normalized sorted lots with expiry 115. -/
theorem feedCache_get_miss_witness :
    (FeedCache.init 15).get 100 [[sampleEntry]] =
      ({ ttl_seconds := 15, _expires_at := 115, _value := fetchLots [sampleEntry] },
        fetchLots [sampleEntry], []) :=
  feedCache_get_miss (FeedCache.init 15) 100 [sampleEntry] [] (Or.inl (by decide))

/-- C2: on a cache hit (current time strictly before the stored expiry and
the stored value non-empty), `get` returns the stored sequence itself and
consumes nothing from the fetch trace. -/
theorem feedCache_get_hit (c : FeedCache) (now : Int) (feeds : List (List RawEntry))
    (h1 : now < c._expires_at) (h2 : c._value ≠ []) :
    c.get now feeds = (c, c._value, feeds) := by
  unfold FeedCache.get
  rw [if_pos ⟨h1, h2⟩]

/-- C2 witness: a warm cache at time 5 serves its cached value with no fetch. -/
theorem feedCache_get_hit_witness :
    cacheWarm.get 5 [] = (cacheWarm, cacheWarm._value, []) :=
  feedCache_get_hit cacheWarm 5 [] (by decide) (by decide)

/-- C3: the sequence produced by a fetch is sorted ascending by the
composite key `sort_key` (open-rank, negated free spaces with absent as
`-1`, lowercased name), compared lexicographically by `keyLE`. -/
theorem fetchLots_sorted (entries : List RawEntry) :
    (fetchLots entries).Pairwise (fun a b => keyLE (sort_key a) (sort_key b) = true) :=
  (fetchLots_pairwise entries).imp (fun h => h)

/-- C4: when splitting the description on `/` (and stripping the pieces)
yields exactly two parts, the parser returns the lowercased first part
(overridden to `"unknown"` when it contains `??`) together with the
`int(...)`-parse of the second part (`none` on parse failure). -/
theorem parse_description_two_parts (desc : String) (a b : List Char)
    (h : (pySplit '/' desc.data).map pyStrip = [a, b]) :
    _parse_description desc =
      (if hasQQ a then "unknown" else String.mk (pyLower a), pyInt b) := by
  have hne : desc ≠ "" := by
    intro he
    rw [he] at h
    simp [pySplit] at h
  unfold _parse_description
  rw [if_neg hne, h]

/-- C4 witness at `"open / 43"`. -/
theorem parse_description_two_parts_witness :
    _parse_description "open / 43" =
      (if hasQQ ("open".data) then "unknown" else String.mk (pyLower ("open".data)),
        pyInt ("43".data)) :=
  parse_description_two_parts "open / 43" ("open".data) ("43".data) (by decide)

/-- C5: the empty description yields `("unknown", none)`; a non-empty
description whose split on `/` does not yield exactly two parts falls back
to the trimmed lowercased whole string (or `"unknown"` when that is
empty), with no free-space count. -/
theorem parse_description_fallback (desc : String) :
    (desc = "" → _parse_description desc = ("unknown", none)) ∧
    (desc ≠ "" → ((pySplit '/' desc.data).map pyStrip).length ≠ 2 →
      _parse_description desc =
        (if pyLower (pyStrip desc.data) = [] then "unknown"
          else String.mk (pyLower (pyStrip desc.data)), none)) := by
  constructor
  · intro h
    unfold _parse_description
    rw [if_pos h]
  · intro hne hlen
    unfold _parse_description
    rw [if_neg hne]
    rcases hp : (pySplit '/' desc.data).map pyStrip with _ | ⟨x, _ | ⟨y, _ | ⟨z, t⟩⟩⟩
    · rfl
    · rfl
    · exfalso; rw [hp] at hlen; simp at hlen
    · rfl

/-- C5 witness: the empty string and the slash-free string `"closed"`. -/
theorem parse_description_fallback_witness :
    _parse_description "" = ("unknown", none) ∧
    _parse_description "closed" =
      (if pyLower (pyStrip ("closed" : String).data) = [] then "unknown"
        else String.mk (pyLower (pyStrip ("closed" : String).data)), none) :=
  ⟨(parse_description_fallback "").1 rfl,
    (parse_description_fallback "closed").2 (by decide) (by decide)⟩

/-- C6 counterexample: `int("-5")` succeeds, so `"open / -5"` yields the
present but negative free-space count `-5`; a present `free_spaces` is not
always non-negative. -/
theorem parse_description_negative_counterexample :
    _parse_description "open / -5" = ("open", some (-5)) ∧ ¬(0 : Int) ≤ -5 := by
  constructor
  · decide
  · decide

/-- C6 amended: a present `free_spaces` value is the parsed integer of the
count part and may be negative; it is non-negative whenever the
description contains no `-` character. -/
theorem parse_description_free_nonneg (desc : String) (n : Int)
    (h : (_parse_description desc).2 = some n) (hm : '-' ∉ desc.data) : 0 ≤ n := by
  by_contra hneg
  apply hm
  have hn : n < 0 := by omega
  clear hneg
  unfold _parse_description at h
  by_cases he : desc = ""
  · rw [if_pos he] at h; simp at h
  · rw [if_neg he] at h
    rcases hp : (pySplit '/' desc.data).map pyStrip with _ | ⟨a, _ | ⟨b, _ | ⟨z, t⟩⟩⟩
    · rw [hp] at h; simp at h
    · rw [hp] at h; simp at h
    · rw [hp] at h
      dsimp only at h
      have hb : b ∈ (pySplit '/' desc.data).map pyStrip := by rw [hp]; simp
      rcases List.mem_map.mp hb with ⟨q, hq, hqb⟩
      have hmem : '-' ∈ b := pyInt_neg h hn
      rw [← hqb] at hmem
      exact mem_of_mem_pySplit hq (mem_of_mem_pyStrip hmem)
    · rw [hp] at h; simp at h

/-- C6 amended witness at `"open / 43"`. -/
theorem parse_description_free_nonneg_witness :
    (_parse_description "open / 43").2 = some 43 ∧
    '-' ∉ ("open / 43" : String).data ∧ (0 : Int) ≤ 43 :=
  ⟨by decide, by decide,
    parse_description_free_nonneg "open / 43" 43 (by decide) (by decide)⟩

/-- C7: the description parser is total: every input string is mapped to a
defined `(status, free_spaces)` pair (the embedding has no failure
branch; the only fallible step, `int(...)`, is absorbed into an `Option`). -/
theorem parse_description_total (desc : String) :
    ∃ status free, _parse_description desc = (status, free) :=
  ⟨(_parse_description desc).1, (_parse_description desc).2, rfl⟩

/-- C8: entry-to-record normalization is deterministic: equal raw entries
normalize to equal `ParkingLot` records. -/
theorem entryToLot_deterministic (e1 e2 : RawEntry) (h : e1 = e2) :
    entryToLot e1 = entryToLot e2 := by
  rw [h]

/-- C8 witness at `sampleEntry`. -/
theorem entryToLot_deterministic_witness :
    entryToLot sampleEntry = entryToLot sampleEntry :=
  entryToLot_deterministic sampleEntry sampleEntry rfl

/-- C9: the cached value is sorted by the composite key at all times:
after construction, and `get` preserves the invariant on both the hit and
the miss path. -/
theorem feedCache_sortedInv_holds :
    (∀ ttl : Int, (FeedCache.init ttl).sortedInv) ∧
    (∀ (c : FeedCache) (now : Int) (feeds : List (List RawEntry)),
      c.sortedInv → ((c.get now feeds).1).sortedInv) := by
  constructor
  · intro ttl
    simp [FeedCache.init, FeedCache.sortedInv]
  · intro c now feeds hc
    unfold FeedCache.get
    by_cases h : now < c._expires_at ∧ c._value ≠ []
    · rw [if_pos h]
      exact hc
    · rw [if_neg h]
      exact (fetchLots_pairwise (feeds.headD [])).imp (fun x => x)

/-- C9 witness: the invariant after construction and after a cold `get`. -/
theorem feedCache_sortedInv_witness :
    (FeedCache.init 15).sortedInv ∧
    (((FeedCache.init 15).get 100 [[sampleEntry]]).1).sortedInv :=
  ⟨feedCache_sortedInv_holds.1 15,
    feedCache_sortedInv_holds.2 (FeedCache.init 15) 100 [[sampleEntry]]
      (feedCache_sortedInv_holds.1 15)⟩

/-- C10: a cache hit leaves every cache field (`ttl_seconds`,
`_expires_at`, `_value`) unchanged. -/
theorem feedCache_get_hit_frame (c : FeedCache) (now : Int) (feeds : List (List RawEntry))
    (h1 : now < c._expires_at) (h2 : c._value ≠ []) :
    ((c.get now feeds).1).ttl_seconds = c.ttl_seconds ∧
    ((c.get now feeds).1)._expires_at = c._expires_at ∧
    ((c.get now feeds).1)._value = c._value := by
  unfold FeedCache.get
  rw [if_pos ⟨h1, h2⟩]
  exact ⟨rfl, rfl, rfl⟩

/-- C10 witness: the warm cache is untouched by a hit at time 5. -/
theorem feedCache_get_hit_frame_witness :
    ((cacheWarm.get 5 []).1).ttl_seconds = cacheWarm.ttl_seconds ∧
    ((cacheWarm.get 5 []).1)._expires_at = cacheWarm._expires_at ∧
    ((cacheWarm.get 5 []).1)._value = cacheWarm._value :=
  feedCache_get_hit_frame cacheWarm 5 [] (by decide) (by decide)
